import Mathlib

/-!
Verification of the decision core of an autonomous Tetris-playing agent
(files src/tetris/src/bot.rs and src/tetris/src/players.rs).

The external Game / Board / Piece abstraction (board geometry, rotation
system, spawning, locking) is not part of this repository's two source
files; per the specification it is a black-box collaborator.  It is
embedded here as an abstract record of operations `GameOps` (modelled from
the spec, section 6), over which all the code of bot.rs and players.rs is
translated.  A small executable instance `simpleOps` (a 1x1 piece over a
list of column heights) provides concrete inputs for evaluation.

Rust `f32` scores are modelled as the elements of an arbitrary linear
ordered ring `ρ` — the code only adds scores, compares them, and uses the
constants 0.0 and f32::INFINITY, the latter modelled as the top element of
`WithTop ρ` (it is only the initial value of the running minimum in
`get_next_move`).  Instantiating `ρ` with the rationals gives the usual
dense model of finite floats; the executable witness instance uses the
integers so that the kernel can evaluate scores.  Mutation of
`&mut Game` / `&mut self` is modelled by explicit state passing: each
operation returns its result together with the updated state.
-/

namespace Tetris

/-- Command, from constants::bot_constants (outside src/).  Modelled from the
spec: tagged variant over {None, MoveLeft, MoveRight, SoftDrop, RotateCW,
RotateCCW, Rotate180, Hold, HardDrop}; immutable, no payload. -/
inductive Command where
  | None
  | MoveLeft
  | MoveRight
  | SoftDrop
  | RotateCW
  | RotateCCW
  | Rotate180
  | Hold
  | HardDrop
deriving DecidableEq, Repr

/-- CommandList, from constants::types: ordered sequence of commands. -/
abbrev CommandList := List Command

/-- MoveList, from constants::types: one command list per candidate. -/
abbrev MoveList := List CommandList

/-- ScoreList, from constants::types: per candidate, the pair
(structural board score, situational versus score) as produced by
Bot::score_game, over the score type ρ modelling f32. -/
abbrev ScoreList (ρ : Type) := List (ρ × ρ)

/-- A weight curve, from the weight module (outside src/).  Modelled from the
spec: a function from a raw feature value to a signed contribution, exposed
through an `eval` method. -/
structure Curve (ρ : Type) where
  eval : ρ → ρ

/-- Weights, from the weight module (outside src/).  Modelled from the spec
and from the fields bot.rs reads: one curve per feature. -/
structure Weights (ρ : Type) where
  combo_weight : Curve ρ
  b2b_weight : Curve ρ
  damage_weight : Curve ρ
  clear_weight : Curve ρ
  adjacent_height_differences_weight : Curve ρ
  total_height_difference_weight : Curve ρ
  height_weight : Curve ρ
  num_hole_total_weight : Curve ρ
  num_hole_weighted_weight : Curve ρ
  cell_covered_weight : Curve ρ

/-- GameData, from the game module (outside src/).  Modelled from the spec:
the situational counters (combo, back-to-back streak, last attack sent,
last lines cleared) read by Bot::score_versus. -/
structure GameData where
  combo : Nat
  b2b : Nat
  last_sent : Nat
  last_cleared : Nat

/-- Modelled from the spec: the external Game/Board/Piece abstraction of
section 6, over a core state type `σ`, a board type `β` and a piece type
`π`.  Each mutator returns its legality report (where applicable) together
with the updated core state; accessors are read-only.  `moveFuel` bounds
the horizontal-move loop of the enumerator, which the spec (section 5)
states is strictly bounded by the board width. -/
structure GameOps (σ β π : Type) where
  active_left : σ → Bool × σ
  active_right : σ → Bool × σ
  active_drop : σ → Bool × σ
  active_cw : σ → Bool × σ
  active_ccw : σ → Bool × σ
  active_180 : σ → Bool × σ
  hold : σ → σ
  hard_drop : σ → Bool × σ
  active_piece_rotate_direction : σ → Nat → Bool × σ
  ret_active_piece_drop : σ → π
  board : σ → β
  holes_cell_covered : β → Nat × Nat × Nat
  get_adjacent_height_differences : β → List Int
  get_max_height_difference : β → Int
  get_max_height : β → Nat
  moveFuel : Nat

/-- PlacementList, from constants::types: one resting pose per candidate. -/
abbrev PlacementList (π : Type) := List π

/-- The Game aggregate as seen by the two source files: the abstract core
state plus the game-over flag, which the spec (section 6) makes gettable
and settable by the core. -/
structure Game (σ : Type) where
  st : σ
  game_over : Bool

variable {σ β π : Type} {ρ : Type} [LinearOrderedRing ρ]

/-- Game::get_game_over (external accessor, modelled from the spec). -/
def Game.get_game_over (g : Game σ) : Bool :=
  g.game_over

/-- Game::set_game_over (external mutator, modelled from the spec). -/
def Game.set_game_over (g : Game σ) (b : Bool) : Game σ :=
  { g with game_over := b }

/-- players.rs, do_command: applies exactly one command to the given Game,
returning the command's success report and the updated game. -/
def do_command (ops : GameOps σ β π) (g : Game σ) : Command → Bool × Game σ
  | Command.None => (true, g)
  | Command.MoveLeft =>
      let r := ops.active_left g.st
      (r.1, { g with st := r.2 })
  | Command.MoveRight =>
      let r := ops.active_right g.st
      (r.1, { g with st := r.2 })
  | Command.SoftDrop =>
      let r := ops.active_drop g.st
      (r.1, { g with st := r.2 })
  | Command.RotateCW =>
      let r := ops.active_cw g.st
      (r.1, { g with st := r.2 })
  | Command.RotateCCW =>
      let r := ops.active_ccw g.st
      (r.1, { g with st := r.2 })
  | Command.Rotate180 =>
      let r := ops.active_180 g.st
      (r.1, { g with st := r.2 })
  | Command.Hold =>
      (true, { g with st := ops.hold g.st })
  | Command.HardDrop =>
      let r := ops.hard_drop g.st
      let game_over := !r.1
      (true, Game.set_game_over { g with st := r.2 } game_over)

/-- players.rs, do_move_list: replays every command of the list in order,
discarding each command's boolean result. -/
def do_move_list (ops : GameOps σ β π) (g : Game σ) (commands : CommandList) : Game σ :=
  commands.foldl (fun g1 c => (do_command ops g1 c).2) g

/-- NUM_ROTATE_STATES, from constants::piece_constants (outside src/).
Modelled from the spec: the fixed small rotation-state count, four. -/
def NUM_ROTATE_STATES : Nat := 4

/-- ROTATIONS, from constants::bot_constants (outside src/).  Modelled from
the spec: the command that rotates the active piece by the given number of
quarter-turns, indexed the way bot.rs indexes the array. -/
def ROTATIONS (direction : Nat) : Command :=
  match direction with
  | 0 => Command.None
  | 1 => Command.RotateCW
  | 2 => Command.Rotate180
  | _ => Command.RotateCCW

/-- bot.rs, Bot: owns the live game and the weights. -/
structure Bot (σ ρ : Type) where
  game : Game σ
  weight : Weights ρ

/-- bot.rs, Bot::get_holes_and_cell_covered_score. -/
def Bot.get_holes_and_cell_covered_score (ops : GameOps σ β π) (board : β)
    (weight : Weights ρ) : ρ :=
  let t := ops.holes_cell_covered board
  weight.num_hole_total_weight.eval (t.1 : ρ)
    + weight.num_hole_weighted_weight.eval (t.2.1 : ρ)
    + weight.cell_covered_weight.eval (t.2.2 : ρ)

/-- bot.rs, Bot::get_height_score. -/
def Bot.get_height_score (ops : GameOps σ β π) (board : β) (weight : Weights ρ) : ρ :=
  let total_height := ops.get_max_height board
  weight.height_weight.eval (total_height : ρ)

/-- bot.rs, Bot::get_height_differences_score. -/
def Bot.get_height_differences_score (ops : GameOps σ β π) (board : β)
    (weight : Weights ρ) : ρ :=
  let adjacent_score : ρ :=
    ((ops.get_adjacent_height_differences board).map
      (fun x => weight.adjacent_height_differences_weight.eval (x : ρ))).sum
  let total_score :=
    weight.total_height_difference_weight.eval ((ops.get_max_height_difference board : Int) : ρ)
  adjacent_score + total_score

/-- bot.rs, Bot::score_board: sum of the three structural feature terms. -/
def Bot.score_board (ops : GameOps σ β π) (board : β) (weights : Weights ρ) : ρ :=
  Bot.get_holes_and_cell_covered_score ops board weights
    + Bot.get_height_score ops board weights
    + Bot.get_height_differences_score ops board weights

/-- bot.rs, Bot::score_game: the pair (structural board score, situational
versus score); the versus component is the hard-coded constant 0.0. -/
def Bot.score_game (ops : GameOps σ β π) (game : Game σ) (weights : Weights ρ)
    (piece : π) : ρ × ρ :=
  let versus_score : ρ := 0
  (Bot.score_board ops (ops.board game.st) weights, versus_score)

/-- bot.rs, Bot::score_versus: weighted sum of the situational counters
(defined in the source, not called on the decision path). -/
def Bot.score_versus (game_data : GameData) (weight : Weights ρ) : ρ :=
  let combo_score := weight.combo_weight.eval (game_data.combo : ρ)
  let b2b := weight.b2b_weight.eval (game_data.b2b : ρ)
  let attack := weight.damage_weight.eval (game_data.last_sent : ρ)
  let clear := weight.clear_weight.eval (game_data.last_cleared : ρ)
  combo_score + b2b + attack + clear

/-- bot.rs, Bot::trivial_extend_direction: the while loop that repeatedly
issues the directional command and, after each success, records the triple
(commands so far plus the direction and a soft drop, the active piece's
drop pose, the score of the simulated game).  The Rust while loop runs
until the move command fails; the spec (section 5) bounds it by the board
width, which `ops.moveFuel` supplies as explicit fuel. -/
def Bot.trivial_extend_direction (ops : GameOps σ β π) (weight : Weights ρ)
    (command : Command) :
    Nat → CommandList → Game σ → (MoveList × PlacementList π × ScoreList ρ) × Game σ
  | 0, _, game => (([], [], []), game)
  | fuel + 1, base_move, game =>
    let r := do_command ops game command
    if r.1 then
      let piece := ops.ret_active_piece_drop r.2.st
      let sc := Bot.score_game ops r.2 weight piece
      let base_move1 := base_move ++ [command, Command.SoftDrop]
      let rest := Bot.trivial_extend_direction ops weight command fuel base_move1 r.2
      ((base_move1 :: rest.1.1, piece :: rest.1.2.1, sc :: rest.1.2.2), rest.2)
    else
      (([], [], []), r.2)

/-- bot.rs, Bot::trivial, body of the for loop for one rotation-state
index: rotate into the state (skipping the state if the rotation is
illegal), extend left then right, then rotate back by the complementary
amount. -/
def Bot.trivialDir (ops : GameOps σ β π) (weight : Weights ρ) (hold : Bool)
    (direction : Nat) (game : Game σ) :
    (MoveList × PlacementList π × ScoreList ρ) × Game σ :=
  let r := ops.active_piece_rotate_direction game.st direction
  let g1 : Game σ := { game with st := r.2 }
  if r.1 then
    let base_move : CommandList :=
      if hold then [Command.Hold, ROTATIONS direction] else [ROTATIONS direction]
    let e1 := Bot.trivial_extend_direction ops weight Command.MoveLeft ops.moveFuel base_move g1
    let e2 := Bot.trivial_extend_direction ops weight Command.MoveRight ops.moveFuel base_move e1.2
    let r2 := (e2.2).st
    let r3 := ops.active_piece_rotate_direction r2 ((NUM_ROTATE_STATES - direction) % NUM_ROTATE_STATES)
    ((e1.1.1 ++ e2.1.1, e1.1.2.1 ++ e2.1.2.1, e1.1.2.2 ++ e2.1.2.2), { e2.2 with st := r3.2 })
  else
    (([], [], []), g1)

/-- bot.rs, Bot::trivial, the for loop over rotation-state indices, as a
recursion over the remaining list of indices, accumulating the three
parallel vectors in enumeration order. -/
def Bot.trivialGo (ops : GameOps σ β π) (weight : Weights ρ) (hold : Bool) :
    List Nat → Game σ → (MoveList × PlacementList π × ScoreList ρ) × Game σ
  | [], game => (([], [], []), game)
  | d :: ds, game =>
    let r1 := Bot.trivialDir ops weight hold d game
    let r2 := Bot.trivialGo ops weight hold ds r1.2
    ((r1.1.1 ++ r2.1.1, r1.1.2.1 ++ r2.1.2.1, r1.1.2.2 ++ r2.1.2.2), r2.2)

/-- bot.rs, Bot::trivial: for direction in 0..NUM_ROTATE_STATES. -/
def Bot.trivial (ops : GameOps σ β π) (game : Game σ) (hold : Bool)
    (weight : Weights ρ) : (MoveList × PlacementList π × ScoreList ρ) × Game σ :=
  Bot.trivialGo ops weight hold (List.range NUM_ROTATE_STATES) game

/-- bot.rs, Bot::move_placement_score_1d. -/
def Bot.move_placement_score_1d (ops : GameOps σ β π) (game : Game σ)
    (weight : Weights ρ) : (MoveList × PlacementList π × ScoreList ρ) × Game σ :=
  Bot.trivial ops game false weight

/-- bot.rs, Bot::move_placement_score: clones the live game into a dummy,
enumerates on the dummy, and drops the dummy; the Bot itself (taken by
mutable reference in the source) is returned unchanged. -/
def Bot.move_placement_score (ops : GameOps σ β π) (b : Bot σ ρ) (depth : Nat)
    (weight : Weights ρ) : (MoveList × PlacementList π × ScoreList ρ) × Bot σ ρ :=
  let dummy := b.game
  ((Bot.move_placement_score_1d ops dummy weight).1, b)

/-- The body of the selection loop of bot.rs, Bot::get_next_move: keep the
candidate whenever its combined score is strictly below the running
minimum (which starts at f32::INFINITY, modelled as the top element). -/
def select_step (acc : CommandList × WithTop ρ) (ms : CommandList × ρ) :
    CommandList × WithTop ρ :=
  if (ms.2 : WithTop ρ) < acc.2 then (ms.1, (ms.2 : WithTop ρ)) else acc

/-- bot.rs, Bot::get_next_move: enumerate, combine each score pair by
addition, select by the strict-minimum loop over the zipped lists, and
append a HardDrop. -/
def Bot.get_next_move (ops : GameOps σ β π) (b : Bot σ ρ) : CommandList × Bot σ ρ :=
  let r := Bot.move_placement_score ops b 3 b.weight
  let deep_moves := r.1.1
  let deep_scores := r.1.2.2.map (fun p => p.1 + p.2)
  let sel := (deep_moves.zip deep_scores).foldl select_step ([], (⊤ : WithTop ρ))
  (sel.1 ++ [Command.HardDrop], r.2)

/-- players.rs, Player::make_move (the trait default, instantiated at Bot):
if the game is already over return false without acting, otherwise request
the next command sequence and replay it against the live game. -/
def make_move (ops : GameOps σ β π) (b : Bot σ ρ) : Bool × Bot σ ρ :=
  if Game.get_game_over b.game then
    (false, b)
  else
    let r := Bot.get_next_move ops b
    (true, { r.2 with game := do_move_list ops r.2.game r.1 })

/-- players.rs, Player::make_n_moves: repeat make_move up to n times,
stopping early the first time it returns false. -/
def make_n_moves (ops : GameOps σ β π) (b : Bot σ ρ) : Nat → Bot σ ρ
  | 0 => b
  | n + 1 =>
    let r := make_move ops b
    if r.1 then make_n_moves ops r.2 n else r.2

/-!  A concrete executable instance of the external Game abstraction,
modelled from the spec: a single-cell piece over a board kept as a list of
column heights.  It exists to evaluate the translated code on concrete
inputs; the theorems below about the code hold for every instance. -/

/-- A concrete piece pose: column, row and rotation state. -/
structure SimplePiece where
  x : Nat
  y : Nat
  rot : Nat
deriving DecidableEq, Repr

/-- A concrete core game state: the active 1x1 piece's pose, the board
width, and the stack as per-column heights. -/
structure SimpleState where
  x : Nat
  y : Nat
  rot : Nat
  width : Nat
  heights : List Nat
deriving DecidableEq, Repr

/-- Height of a column of the concrete board. -/
def colHeight (b : List Nat) (x : Nat) : Nat :=
  b.getD x 0

/-- The row at which the concrete piece comes to rest in its column. -/
def simpleRest (s : SimpleState) : Nat :=
  colHeight s.heights s.x

/-- Modelled from the spec: a concrete instance of the external Game
operations.  Sideways moves are legal while the target column is on the
board and its stack is at or below the piece; soft drop moves the piece to
its resting row; rotations of a 1x1 piece are always legal and
rotate-to-direction turns by the given number of quarter-turns; hard drop
locks one cell, respawns at the centre column, and reports whether the
spawn row is clear. -/
def simpleOps : GameOps SimpleState (List Nat) SimplePiece where
  active_left := fun s =>
    if 0 < s.x ∧ colHeight s.heights (s.x - 1) ≤ s.y then
      (true, { s with x := s.x - 1 })
    else
      (false, s)
  active_right := fun s =>
    if s.x + 1 < s.width ∧ colHeight s.heights (s.x + 1) ≤ s.y then
      (true, { s with x := s.x + 1 })
    else
      (false, s)
  active_drop := fun s =>
    if simpleRest s < s.y then (true, { s with y := simpleRest s }) else (false, s)
  active_cw := fun s => (true, { s with rot := (s.rot + 1) % 4 })
  active_ccw := fun s => (true, { s with rot := (s.rot + 3) % 4 })
  active_180 := fun s => (true, { s with rot := (s.rot + 2) % 4 })
  hold := fun s => s
  hard_drop := fun s =>
    let heights1 := s.heights.set s.x (colHeight s.heights s.x + 1)
    (decide (colHeight heights1 (s.width / 2) < 6),
      { s with heights := heights1, x := s.width / 2, y := 6, rot := 0 })
  active_piece_rotate_direction := fun s d => (true, { s with rot := (s.rot + d) % 4 })
  ret_active_piece_drop := fun s => ⟨s.x, simpleRest s, s.rot⟩
  board := fun s => s.heights
  holes_cell_covered := fun _ => (0, 0, 0)
  get_adjacent_height_differences := fun b =>
    (b.zip b.tail).map (fun p => (p.1 : Int) - (p.2 : Int))
  get_max_height_difference := fun b =>
    (((b.zip b.tail).map (fun p => (p.1 : Int) - (p.2 : Int))).foldr max 0)
  get_max_height := fun b => b.foldr max 0
  moveFuel := 16

/-- A weight curve that maps every feature value to zero. -/
def zeroCurve : Curve Int :=
  ⟨fun _ => 0⟩

/-- Weights whose every curve is the zero curve: every board scores 0. -/
def w0 : Weights Int :=
  ⟨zeroCurve, zeroCurve, zeroCurve, zeroCurve, zeroCurve,
    zeroCurve, zeroCurve, zeroCurve, zeroCurve, zeroCurve⟩

/-- Fixture: a width-3 empty board with the piece at column 1, row 2. -/
def s3 : SimpleState :=
  ⟨1, 2, 0, 3, [0, 0, 0]⟩

/-- Fixture game over s3, not yet over. -/
def g3 : Game SimpleState :=
  ⟨s3, false⟩

/-- Fixture bot over g3 with zero weights. -/
def bot3 : Bot SimpleState Int :=
  ⟨g3, w0⟩

/-- Fixture: a width-1 board, where no horizontal move is ever legal. -/
def s1 : SimpleState :=
  ⟨0, 2, 0, 1, [0]⟩

/-- Fixture game over s1. -/
def g1 : Game SimpleState :=
  ⟨s1, false⟩

/-- Fixture bot over g1 with zero weights. -/
def bot1 : Bot SimpleState Int :=
  ⟨g1, w0⟩

/-- Fixture: a width-1 board whose only column is already 6 high, so the
spawn after a hard drop fails. -/
def sFail : SimpleState :=
  ⟨0, 2, 0, 1, [6]⟩

/-- Fixture game over sFail. -/
def gFail : Game SimpleState :=
  ⟨sFail, false⟩

/-- C4: the live game owned by the Bot is unchanged after get_next_move
returns; enumeration and scoring run on a clone only, and
move_placement_score likewise returns the Bot unchanged for every depth
and weights. -/
theorem C4_live_game_untouched (ops : GameOps σ β π) (b : Bot σ ρ) :
    (Bot.get_next_move ops b).2 = b ∧
      ∀ (d : Nat) (w : Weights ρ), (Bot.move_placement_score ops b d w).2 = b :=
  ⟨rfl, fun _ _ => rfl⟩

/-- C5: do_command returns true on None leaving the game unchanged, true on
Hold after delegating the swap to the Game's hold operation, and true on
HardDrop regardless of outcome; after a HardDrop whose post-lock spawn
fails, the game-over flag is set to true. -/
theorem C5_do_command_none_hold_harddrop (ops : GameOps σ β π) (g : Game σ) :
    do_command ops g Command.None = (true, g) ∧
    (do_command ops g Command.Hold).1 = true ∧
    (do_command ops g Command.Hold).2.st = ops.hold g.st ∧
    (do_command ops g Command.HardDrop).1 = true ∧
    (do_command ops g Command.HardDrop).2.game_over = !(ops.hard_drop g.st).1 ∧
    ((ops.hard_drop g.st).1 = false →
      (do_command ops g Command.HardDrop).2.game_over = true) := by
  refine ⟨rfl, rfl, rfl, rfl, rfl, ?_⟩
  intro h
  simp [do_command, Game.set_game_over, h]

/-- Witness for C5 at a concrete game whose post-lock spawn fails. -/
theorem C5_witness :
    (simpleOps.hard_drop gFail.st).1 = false ∧
    (do_command simpleOps gFail Command.HardDrop).2.game_over = true :=
  ⟨by decide, (C5_do_command_none_hold_harddrop simpleOps gFail).2.2.2.2.2 (by decide)⟩

/-- C7: the depth argument of move_placement_score does not affect the
result: any two depths give identical (moves, placements, scores) triples
(and an identical resulting Bot). -/
theorem C7_depth_unused (ops : GameOps σ β π) (b : Bot σ ρ) (d1 d2 : Nat)
    (weight : Weights ρ) :
    Bot.move_placement_score ops b d1 weight = Bot.move_placement_score ops b d2 weight :=
  rfl

/-- C8: after do_command with HardDrop the game-over flag equals the
negation of hard_drop's reported spawn success, for every prior flag
value; in particular a successful spawn clears a previously-set game-over
flag. -/
theorem C8_harddrop_overwrites_game_over (ops : GameOps σ β π) (g : Game σ) :
    (do_command ops g Command.HardDrop).2.game_over = !(ops.hard_drop g.st).1 ∧
    (g.game_over = true → (ops.hard_drop g.st).1 = true →
      (do_command ops g Command.HardDrop).2.game_over = false) := by
  refine ⟨rfl, fun _ h => ?_⟩
  simp [do_command, Game.set_game_over, h]

/-- Witness for C8 at a concrete already-over game whose hard drop spawns
successfully: the flag is cleared. -/
theorem C8_witness :
    (⟨s1, true⟩ : Game SimpleState).game_over = true ∧
    (simpleOps.hard_drop s1).1 = true ∧
    (do_command simpleOps ⟨s1, true⟩ Command.HardDrop).2.game_over = false :=
  ⟨rfl, by decide,
    (C8_harddrop_overwrites_game_over simpleOps ⟨s1, true⟩).2 rfl (by decide)⟩

/-- C9: do_move_list replays every command unconditionally, discarding each
command's boolean result (a failed command does not stop the replay of the
rest), and make_move returns true exactly when the game was not already
over, regardless of command failures during the replay. -/
theorem C9_replay_unconditional (ops : GameOps σ β π) (g : Game σ) (c : Command)
    (cs : CommandList) (b : Bot σ ρ) :
    do_move_list ops g (c :: cs) = do_move_list ops ((do_command ops g c).2) cs ∧
    (make_move ops b).1 = !(Game.get_game_over b.game) := by
  constructor
  · rfl
  · by_cases h : Game.get_game_over b.game
    · simp [make_move, h]
    · simp [make_move, h]

/-- C10: score_game never reads its piece argument: any two pieces give the
same score pair, which is determined by the passed game's board and the
weights alone. -/
theorem C10_score_game_ignores_piece (ops : GameOps σ β π) (g : Game σ)
    (w : Weights ρ) (p1 p2 : π) :
    Bot.score_game ops g w p1 = Bot.score_game ops g w p2 ∧
    Bot.score_game ops g w p1 = (Bot.score_board ops (ops.board g.st) w, 0) :=
  ⟨rfl, rfl⟩

/-- C3: when the enumeration produces zero candidates (every rotation state
yields zero legal horizontal moves), get_next_move returns exactly the
one-element sequence [HardDrop]. -/
theorem C3_no_candidates_bare_harddrop (ops : GameOps σ β π) (b : Bot σ ρ)
    (h : (Bot.move_placement_score ops b 3 b.weight).1.1 = []) :
    (Bot.get_next_move ops b).1 = [Command.HardDrop] := by
  simp [Bot.get_next_move, h]

/-- Witness for C3 at a concrete game (width-1 board) where every rotation
state yields zero legal horizontal moves. -/
theorem C3_witness :
    (Bot.move_placement_score simpleOps bot1 3 bot1.weight).1.1 = [] ∧
    (Bot.get_next_move simpleOps bot1).1 = [Command.HardDrop] :=
  ⟨by decide, C3_no_candidates_bare_harddrop simpleOps bot1 (by decide)⟩

/-- The three vectors produced by one direction pass have equal lengths:
each loop iteration pushes exactly one element on each. -/
theorem extend_lengths (ops : GameOps σ β π) (w : Weights ρ) (c : Command) (fuel : Nat) :
    ∀ (base : CommandList) (g : Game σ),
      ((Bot.trivial_extend_direction ops w c fuel base g).1.1.length
          = (Bot.trivial_extend_direction ops w c fuel base g).1.2.1.length) ∧
      ((Bot.trivial_extend_direction ops w c fuel base g).1.1.length
          = (Bot.trivial_extend_direction ops w c fuel base g).1.2.2.length) := by
  induction fuel with
  | zero => intro base g; exact ⟨rfl, rfl⟩
  | succ n ih =>
    intro base g
    by_cases h : (do_command ops g c).1 = true
    · obtain ⟨h1, h2⟩ := ih (base ++ [c, Command.SoftDrop]) (do_command ops g c).2
      simp only [Bot.trivial_extend_direction, h, if_true, List.length_cons]
      omega
    · simp only [Bot.trivial_extend_direction, h, if_false]
      exact ⟨rfl, rfl⟩

/-- The three vectors produced for one rotation-state index have equal
lengths. -/
theorem dir_lengths (ops : GameOps σ β π) (w : Weights ρ) (hold : Bool) (d : Nat)
    (g : Game σ) :
    ((Bot.trivialDir ops w hold d g).1.1.length
        = (Bot.trivialDir ops w hold d g).1.2.1.length) ∧
    ((Bot.trivialDir ops w hold d g).1.1.length
        = (Bot.trivialDir ops w hold d g).1.2.2.length) := by
  by_cases h : (ops.active_piece_rotate_direction g.st d).1 = true
  · simp only [Bot.trivialDir, h, if_true, List.length_append]
    obtain ⟨a1, a2⟩ := extend_lengths ops w Command.MoveLeft ops.moveFuel
      (if hold then [Command.Hold, ROTATIONS d] else [ROTATIONS d])
      { g with st := (ops.active_piece_rotate_direction g.st d).2 }
    obtain ⟨b1, b2⟩ := extend_lengths ops w Command.MoveRight ops.moveFuel
      (if hold then [Command.Hold, ROTATIONS d] else [ROTATIONS d])
      (Bot.trivial_extend_direction ops w Command.MoveLeft ops.moveFuel
        (if hold then [Command.Hold, ROTATIONS d] else [ROTATIONS d])
        { g with st := (ops.active_piece_rotate_direction g.st d).2 }).2
    omega
  · simp only [Bot.trivialDir, h, if_false]
    exact ⟨rfl, rfl⟩

/-- The three vectors accumulated over any list of rotation-state indices
have equal lengths. -/
theorem go_lengths (ops : GameOps σ β π) (w : Weights ρ) (hold : Bool) (ds : List Nat) :
    ∀ (g : Game σ),
      ((Bot.trivialGo ops w hold ds g).1.1.length
          = (Bot.trivialGo ops w hold ds g).1.2.1.length) ∧
      ((Bot.trivialGo ops w hold ds g).1.1.length
          = (Bot.trivialGo ops w hold ds g).1.2.2.length) := by
  induction ds with
  | nil => intro g; exact ⟨rfl, rfl⟩
  | cons d ds ih =>
    intro g
    obtain ⟨h1, h2⟩ := dir_lengths ops w hold d g
    obtain ⟨h3, h4⟩ := ih (Bot.trivialDir ops w hold d g).2
    simp only [Bot.trivialGo, List.length_append]
    omega

/-- bot.rs keeps the three parallel candidate vectors index-aligned: the
move, placement and score lists of move_placement_score have equal
lengths. -/
theorem mps_lengths (ops : GameOps σ β π) (b : Bot σ ρ) (d : Nat) (w : Weights ρ) :
    ((Bot.move_placement_score ops b d w).1.1.length
        = (Bot.move_placement_score ops b d w).1.2.1.length) ∧
    ((Bot.move_placement_score ops b d w).1.1.length
        = (Bot.move_placement_score ops b d w).1.2.2.length) :=
  go_lengths ops w false (List.range NUM_ROTATE_STATES) b.game

/-- Every score pushed by a direction pass comes from score_game, whose
versus component is the constant 0. -/
theorem extend_scores_versus (ops : GameOps σ β π) (w : Weights ρ) (c : Command)
    (fuel : Nat) :
    ∀ (base : CommandList) (g : Game σ) (s : ρ × ρ),
      s ∈ (Bot.trivial_extend_direction ops w c fuel base g).1.2.2 → s.2 = 0 := by
  induction fuel with
  | zero => intro base g s hs; simp [Bot.trivial_extend_direction] at hs
  | succ n ih =>
    intro base g s hs
    by_cases h : (do_command ops g c).1 = true
    · simp only [Bot.trivial_extend_direction, h, if_true, List.mem_cons] at hs
      rcases hs with rfl | hs'
      · rfl
      · exact ih (base ++ [c, Command.SoftDrop]) (do_command ops g c).2 s hs'
    · simp [Bot.trivial_extend_direction, h] at hs

/-- Every score recorded for one rotation-state index has versus component 0. -/
theorem dir_scores_versus (ops : GameOps σ β π) (w : Weights ρ) (hold : Bool)
    (d : Nat) (g : Game σ) (s : ρ × ρ)
    (hs : s ∈ (Bot.trivialDir ops w hold d g).1.2.2) : s.2 = 0 := by
  by_cases h : (ops.active_piece_rotate_direction g.st d).1 = true
  · simp only [Bot.trivialDir, h, if_true, List.mem_append] at hs
    rcases hs with hs' | hs'
    · exact extend_scores_versus ops w Command.MoveLeft ops.moveFuel _ _ s hs'
    · exact extend_scores_versus ops w Command.MoveRight ops.moveFuel _ _ s hs'
  · simp [Bot.trivialDir, h] at hs

/-- Every score accumulated over any list of rotation-state indices has
versus component 0. -/
theorem go_scores_versus (ops : GameOps σ β π) (w : Weights ρ) (hold : Bool)
    (ds : List Nat) :
    ∀ (g : Game σ) (s : ρ × ρ),
      s ∈ (Bot.trivialGo ops w hold ds g).1.2.2 → s.2 = 0 := by
  induction ds with
  | nil => intro g s hs; simp [Bot.trivialGo] at hs
  | cons d ds ih =>
    intro g s hs
    simp only [Bot.trivialGo, List.mem_append] at hs
    rcases hs with hs' | hs'
    · exact dir_scores_versus ops w hold d g s hs'
    · exact ih (Bot.trivialDir ops w hold d g).2 s hs'

/-- C6: for every enumerated candidate, the situational (versus) component
of the score pair returned by score_game is exactly 0, so the combined
score used in decision selection equals the structural board score
alone. -/
theorem C6_versus_component_zero (ops : GameOps σ β π) (g : Game σ) (w : Weights ρ)
    (s : ρ × ρ)
    (hs : s ∈ (Bot.trivial ops g false w).1.2.2) :
    s.2 = 0 ∧ s.1 + s.2 = s.1 := by
  have h0 : s.2 = 0 := go_scores_versus ops w false (List.range NUM_ROTATE_STATES) g s hs
  exact ⟨h0, by rw [h0, add_zero]⟩

/-- Witness for C6 at a concrete enumerated score of the width-3 fixture. -/
theorem C6_witness :
    (((0 : Int), (0 : Int)) ∈ (Bot.trivial simpleOps g3 false w0).1.2.2) ∧
    (((0 : Int), (0 : Int)).2 = 0 ∧
      ((0 : Int), (0 : Int)).1 + ((0 : Int), (0 : Int)).2 = ((0 : Int), (0 : Int)).1) := by
  have h : (Bot.trivial simpleOps g3 false w0).1.2.2
      = List.replicate 15 ((0 : Int), (0 : Int)) := by decide
  have hm : ((0 : Int), (0 : Int)) ∈ (Bot.trivial simpleOps g3 false w0).1.2.2 := by
    rw [h]
    exact List.mem_replicate.mpr ⟨by decide, rfl⟩
  exact ⟨hm, C6_versus_component_zero simpleOps g3 w0 ((0 : Int), (0 : Int)) hm⟩

/-- C2, failing input: on the width-3 empty-board fixture the enumerator
records, for candidate index 1, the command list [None, MoveRight,
SoftDrop] with resting placement column 1; replaying that same command
list with the Dispatcher from the pre-decision state lands the piece at
column 2, because the MoveRight pass starts from the far-left position the
MoveLeft pass left the simulated piece in. -/
theorem C2_replay_divergence :
    (Bot.trivial simpleOps g3 false w0).1.1.getD 1 []
        = [Command.None, Command.MoveRight, Command.SoftDrop] ∧
    (Bot.trivial simpleOps g3 false w0).1.2.1.getD 1 ⟨0, 0, 0⟩
        = (⟨1, 0, 0⟩ : SimplePiece) ∧
    simpleOps.ret_active_piece_drop
        (do_move_list simpleOps g3
          ((Bot.trivial simpleOps g3 false w0).1.1.getD 1 [])).st
      = (⟨2, 0, 0⟩ : SimplePiece) := by
  decide

/-- Invariant of the selection fold of get_next_move, starting from a
finite running minimum: the fold returns either the unchanged accumulator
(when no score strictly beats it) or the first candidate that strictly
beats the accumulator and is weakly minimal, strictly below every earlier
candidate. -/
theorem select_foldl_spec (l : List (CommandList × ρ)) :
    ∀ (a : CommandList) (q : ρ),
    ∃ (a2 : CommandList) (q2 : ρ),
      l.foldl select_step (a, (q : WithTop ρ)) = (a2, (q2 : WithTop ρ)) ∧
      q2 ≤ q ∧ (∀ x ∈ l, q2 ≤ x.2) ∧
      ((q2 = q ∧ a2 = a) ∨
        ∃ i, i < l.length ∧ a2 = (l.getD i ([], 0)).1 ∧ q2 = (l.getD i ([], 0)).2 ∧
          q2 < q ∧ ∀ j, j < i → q2 < (l.getD j ([], 0)).2) := by
  induction l with
  | nil =>
    intro a q
    exact ⟨a, q, rfl, le_refl q, by simp, Or.inl ⟨rfl, rfl⟩⟩
  | cons x xs ih =>
    intro a q
    by_cases hx : x.2 < q
    · have hstep : select_step (a, (q : WithTop ρ)) x = (x.1, (x.2 : WithTop ρ)) :=
        if_pos (WithTop.coe_lt_coe.mpr hx)
      obtain ⟨a2, q2, heq, hle, hall, hdisj⟩ := ih x.1 x.2
      refine ⟨a2, q2, ?_, le_of_lt (lt_of_le_of_lt hle hx), ?_, ?_⟩
      · rw [List.foldl_cons, hstep]; exact heq
      · intro y hy
        rcases List.mem_cons.mp hy with rfl | hy'
        · exact hle
        · exact hall y hy'
      · right
        rcases hdisj with ⟨hq2, ha2⟩ | ⟨i, hi, ha, hq, hlt, hfirst⟩
        · refine ⟨0, by simp, ?_, ?_, by rw [hq2]; exact hx, ?_⟩
          · rw [List.getD_cons_zero]; exact ha2
          · rw [List.getD_cons_zero]; exact hq2
          · intro j hj
            exact absurd hj (Nat.not_lt_zero j)
        · refine ⟨i + 1, by simp; omega, ?_, ?_, lt_trans hlt hx, ?_⟩
          · rw [List.getD_cons_succ]; exact ha
          · rw [List.getD_cons_succ]; exact hq
          · intro j hj
            cases j with
            | zero => rw [List.getD_cons_zero]; exact hlt
            | succ k =>
              rw [List.getD_cons_succ]
              exact hfirst k (by omega)
    · have hqx : q ≤ x.2 := not_lt.mp hx
      have hnot : ¬ ((x.2 : WithTop ρ) < (q : WithTop ρ)) :=
        fun hcon => hx (WithTop.coe_lt_coe.mp hcon)
      have hstep : select_step (a, (q : WithTop ρ)) x = (a, (q : WithTop ρ)) :=
        if_neg hnot
      obtain ⟨a2, q2, heq, hle, hall, hdisj⟩ := ih a q
      refine ⟨a2, q2, ?_, hle, ?_, ?_⟩
      · rw [List.foldl_cons, hstep]; exact heq
      · intro y hy
        rcases List.mem_cons.mp hy with rfl | hy'
        · exact le_trans hle hqx
        · exact hall y hy'
      · rcases hdisj with hL | ⟨i, hi, ha, hq, hlt, hfirst⟩
        · exact Or.inl hL
        · right
          refine ⟨i + 1, by simp; omega, ?_, ?_, hlt, ?_⟩
          · rw [List.getD_cons_succ]; exact ha
          · rw [List.getD_cons_succ]; exact hq
          · intro j hj
            cases j with
            | zero =>
              rw [List.getD_cons_zero]
              exact lt_of_lt_of_le hlt hqx
            | succ k =>
              rw [List.getD_cons_succ]
              exact hfirst k (by omega)

/-- The selection fold of get_next_move, started from the infinite running
minimum, returns the first candidate attaining the minimal score of a
nonempty list. -/
theorem select_foldl_top (l : List (CommandList × ρ)) (hne : l ≠ []) :
    ∃ i, i < l.length ∧
      (l.foldl select_step ([], (⊤ : WithTop ρ))).1 = (l.getD i ([], 0)).1 ∧
      (∀ j, j < l.length → (l.getD i ([], 0)).2 ≤ (l.getD j ([], 0)).2) ∧
      (∀ j, j < i → (l.getD i ([], 0)).2 < (l.getD j ([], 0)).2) := by
  cases l with
  | nil => exact absurd rfl hne
  | cons x xs =>
    have hstep : select_step (([] : CommandList), (⊤ : WithTop ρ)) x
        = (x.1, (x.2 : WithTop ρ)) :=
      if_pos (WithTop.coe_lt_top x.2)
    obtain ⟨a2, q2, heq, hle, hall, hdisj⟩ := select_foldl_spec xs x.1 x.2
    have hres : ((x :: xs).foldl select_step ([], (⊤ : WithTop ρ))).1 = a2 := by
      rw [List.foldl_cons, hstep, heq]
    have hmem : ∀ k, k < xs.length → q2 ≤ (xs.getD k ([], 0)).2 := by
      intro k hk
      refine hall _ ?_
      rw [List.getD_eq_getElem _ _ hk]
      exact List.getElem_mem hk
    rcases hdisj with ⟨hq2, ha2⟩ | ⟨i, hi, ha, hq, hlt, hfirst⟩
    · refine ⟨0, by simp, ?_, ?_, ?_⟩
      · rw [hres, List.getD_cons_zero]; exact ha2
      · intro j hj
        cases j with
        | zero => exact le_refl _
        | succ k =>
          have hk : k < xs.length := by simpa using hj
          rw [List.getD_cons_zero, List.getD_cons_succ, ← hq2]
          exact hmem k hk
      · intro j hj
        exact absurd hj (Nat.not_lt_zero j)
    · refine ⟨i + 1, by simp; omega, ?_, ?_, ?_⟩
      · rw [hres, List.getD_cons_succ]; exact ha
      · intro j hj
        cases j with
        | zero =>
          rw [List.getD_cons_succ, List.getD_cons_zero, ← hq]
          exact le_of_lt hlt
        | succ k =>
          have hk : k < xs.length := by simpa using hj
          rw [List.getD_cons_succ, List.getD_cons_succ, ← hq]
          exact hmem k hk
      · intro j hj
        cases j with
        | zero =>
          rw [List.getD_cons_succ, List.getD_cons_zero, ← hq]
          exact hlt
        | succ k =>
          rw [List.getD_cons_succ, List.getD_cons_succ, ← hq]
          exact hfirst k (by omega)

/-- C1: get_next_move returns the command sequence of the first enumerated
candidate attaining the minimum combined (structural + situational) score
among all enumerated candidates, with a HardDrop appended: the selected
index bears a combined score at most every candidate's and strictly below
every earlier candidate's, so exact ties resolve to the candidate
enumerated first (enumeration order is rotation-state-major, left pass
before right pass, one more move per later candidate). -/
theorem C1_selects_min (ops : GameOps σ β π) (b : Bot σ ρ)
    (ms : MoveList) (cs : List ρ)
    (hms : ms = (Bot.move_placement_score ops b 3 b.weight).1.1)
    (hcs : cs = (Bot.move_placement_score ops b 3 b.weight).1.2.2.map
      (fun p => p.1 + p.2))
    (hne : ms ≠ []) :
    ∃ i, i < ms.length ∧
      (Bot.get_next_move ops b).1 = ms.getD i [] ++ [Command.HardDrop] ∧
      (∀ j, j < cs.length → cs.getD i 0 ≤ cs.getD j 0) ∧
      (∀ j, j < i → cs.getD i 0 < cs.getD j 0) := by
  subst hms; subst hcs
  have hlen : (Bot.move_placement_score ops b 3 b.weight).1.1.length
      = ((Bot.move_placement_score ops b 3 b.weight).1.2.2.map
          (fun p : ρ × ρ => p.1 + p.2)).length := by
    rw [List.length_map]
    exact (mps_lengths ops b 3 b.weight).2
  set msl := (Bot.move_placement_score ops b 3 b.weight).1.1 with hmsl
  set csl := (Bot.move_placement_score ops b 3 b.weight).1.2.2.map
    (fun p : ρ × ρ => p.1 + p.2) with hcsl
  have hzlen : (msl.zip csl).length = msl.length := by
    rw [List.length_zip, ← hlen, Nat.min_self]
  have hznil : msl.zip csl ≠ [] := by
    intro h0
    apply hne
    have h1 : (msl.zip csl).length = 0 := by rw [h0]; rfl
    rw [hzlen] at h1
    exact List.length_eq_zero.mp h1
  obtain ⟨i, hi, hsel, hmin, hfirst⟩ := select_foldl_top (msl.zip csl) hznil
  have hget : ∀ k, k < (msl.zip csl).length →
      (msl.zip csl).getD k ([], 0) = (msl.getD k [], csl.getD k 0) := by
    intro k hk
    have hk1 : k < msl.length := by omega
    have hk2 : k < csl.length := by omega
    rw [List.getD_eq_getElem _ _ hk, List.getD_eq_getElem _ _ hk1,
      List.getD_eq_getElem _ _ hk2, List.getElem_zip]
  have him : i < msl.length := by omega
  refine ⟨i, him, ?_, ?_, ?_⟩
  · have hgnm : (Bot.get_next_move ops b).1
        = ((msl.zip csl).foldl select_step ([], (⊤ : WithTop ρ))).1
            ++ [Command.HardDrop] := rfl
    rw [hgnm, hsel, hget i hi]
  · intro j hj
    have hj' : j < (msl.zip csl).length := by omega
    have h := hmin j hj'
    rw [hget i hi, hget j hj'] at h
    simpa using h
  · intro j hj
    have hj' : j < (msl.zip csl).length := by omega
    have h := hfirst j hj
    rw [hget i hi, hget j hj'] at h
    simpa using h

/-- Witness for C1 at the width-3 fixture, where the enumeration is
nonempty. -/
theorem C1_witness :
    (Bot.move_placement_score simpleOps bot3 3 bot3.weight).1.1 ≠ [] ∧
    ∃ i, i < (Bot.move_placement_score simpleOps bot3 3 bot3.weight).1.1.length ∧
      (Bot.get_next_move simpleOps bot3).1
          = (Bot.move_placement_score simpleOps bot3 3 bot3.weight).1.1.getD i []
              ++ [Command.HardDrop] ∧
      (∀ j, j < ((Bot.move_placement_score simpleOps bot3 3 bot3.weight).1.2.2.map
            (fun p => p.1 + p.2)).length →
        ((Bot.move_placement_score simpleOps bot3 3 bot3.weight).1.2.2.map
            (fun p => p.1 + p.2)).getD i 0
          ≤ ((Bot.move_placement_score simpleOps bot3 3 bot3.weight).1.2.2.map
            (fun p => p.1 + p.2)).getD j 0) ∧
      (∀ j, j < i →
        ((Bot.move_placement_score simpleOps bot3 3 bot3.weight).1.2.2.map
            (fun p => p.1 + p.2)).getD i 0
          < ((Bot.move_placement_score simpleOps bot3 3 bot3.weight).1.2.2.map
            (fun p => p.1 + p.2)).getD j 0) :=
  ⟨by decide, C1_selects_min simpleOps bot3 _ _ rfl rfl (by decide)⟩

end Tetris
